import Mathlib

/-!
Verification of the CompliScan contract analyzer (`src/app.py`).

The analysis core of the application is a handful of pure string functions:

* `find_osh_version` — tries an ordered list of three regular expressions
  (case-insensitively, Python `re.search` semantics) and returns the first
  capturing group of the first pattern that matches, or `"Not Found"`;
* `classify_risk` — scans the tiers HIGH, MEDIUM, LOW in order and returns
  the first tier one of whose keyword phrases occurs case-insensitively in
  the text, or `"Unknown"`;
* `check_schedules` — returns the sub-list of a fixed schedule-label list
  whose labels occur case-insensitively in the text;
* `extract_text` — dispatches on the file name's extension (`.pdf` /
  `.docx`, case-sensitive `str.endswith`) and joins the pages respectively
  paragraphs produced by the external parser with `"\n"`, returning `""`
  for unrecognized extensions;
* the per-contract loop, which labels each contract Compliant or
  Not Compliant and accumulates the two summary lists.

The regular expressions are embedded as token lists over a small class of
regex constructs that covers exactly the three patterns of the source
(case-insensitive literals, `\s*`, `\s+`, `:?`, `[\s\-]*`, `.*` and the
single capturing group `([0-9.]+)`), with a backtracking matcher that
follows Python's leftmost-match, greedy-with-backtracking semantics.
Document parsing by the external libraries (PyMuPDF, python-docx) is
abstracted as the list of page/paragraph texts they yield.
-/

namespace CompliScan

/-- Python's `\s` character class (`re` module on `str`, i.e. Unicode mode):
space, tab, newline, carriage return, vertical tab, form feed, the file/group/
record/unit separators, NEL, NBSP and the Unicode space characters. -/
def isPySpace (c : Char) : Bool :=
  c == ' ' || c == '\t' || c == '\n' || c == '\r' || c == '\x0b' || c == '\x0c' ||
  decide (0x1c ≤ c.toNat ∧ c.toNat ≤ 0x1f) || c == '\x85' || c == '\xa0' ||
  c == ' ' || decide (0x2000 ≤ c.toNat ∧ c.toNat ≤ 0x200a) ||
  c == ' ' || c == ' ' || c == ' ' || c == ' ' || c == '　'

/-- The character classes occurring in the three version regexes of
`find_osh_version`: `\s`, `[\s\-]`, `[0-9.]` and `.` (which in Python does
not match a newline). -/
inductive CClass
  | ws
  | wsdash
  | digitdot
  | dot
deriving DecidableEq

/-- Membership test of a character class. -/
def CClass.test : CClass → Char → Bool
  | .ws, c => isPySpace c
  | .wsdash, c => isPySpace c || c == '-'
  | .digitdot, c => c.isDigit || c == '.'
  | .dot, c => !(c == '\n')

/-- One token of a version regex: a literal character (compared
case-insensitively, `re.IGNORECASE`), an optional character (`c?`), a greedy
star or plus over a character class, or the single capturing group
`([0-9.]+)`. -/
inductive Tok
  | lit (c : Char)
  | opt (c : Char)
  | star (cc : CClass)
  | plus (cc : CClass)
  | grp
deriving DecidableEq

/-- Length of the maximal prefix of `s` all of whose characters belong to the
class `cc` — the most a greedy `cc*` / `cc+` can consume. -/
def runLen (cc : CClass) : List Char → Nat
  | [] => 0
  | c :: s => if cc.test c then runLen cc s + 1 else 0

/-- Greedy quantifier driver: try the continuation `f` at consumption length
`k`, then `k - 1`, …, down to `0` (first success wins, as a backtracking
engine does for a greedy `*`). -/
def tryGreedy (f : Nat → Option (List Char)) : Nat → Option (List Char)
  | 0 => f 0
  | k + 1 =>
    match f (k + 1) with
    | some g => some g
    | none => tryGreedy f k

/-- Greedy quantifier driver for `+`-like constructs: try `f` at consumption
lengths `k`, `k - 1`, …, down to `1` (never `0`). -/
def tryGreedyPos (f : Nat → Option (List Char)) : Nat → Option (List Char)
  | 0 => none
  | k + 1 =>
    match f (k + 1) with
    | some g => some g
    | none => tryGreedyPos f k

/-- Backtracking matcher: does the token list match a prefix of `s`?  On
success it returns the text consumed by the capturing group (`[]` when the
token list contains no group).  Literals are compared case-insensitively,
quantifiers are greedy with backtracking — Python `re` semantics for the
constructs occurring in the three version patterns. -/
def matchToks : List Tok → List Char → Option (List Char)
  | [], _ => some []
  | .lit _ :: _, [] => none
  | .lit c :: ts, d :: s =>
    if d.toLower = c.toLower then matchToks ts s else none
  | .opt _ :: ts, [] => matchToks ts []
  | .opt c :: ts, d :: s =>
    if d = c then
      match matchToks ts s with
      | some g => some g
      | none => matchToks ts (d :: s)
    else matchToks ts (d :: s)
  | .star cc :: ts, s => tryGreedy (fun k => matchToks ts (s.drop k)) (runLen cc s)
  | .plus cc :: ts, s => tryGreedyPos (fun k => matchToks ts (s.drop k)) (runLen cc s)
  | .grp :: ts, s =>
    tryGreedyPos (fun k => (matchToks ts (s.drop k)).map (fun _ => s.take k))
      (runLen CClass.digitdot s)

/-- `re.search`: try to match at position 0, 1, 2, … and return the group of
the leftmost successful match position. -/
def search (toks : List Tok) : List Char → Option (List Char)
  | [] => matchToks toks []
  | c :: s =>
    match matchToks toks (c :: s) with
    | some g => some g
    | none => search toks s

/-- Case-insensitive literal word: one `Tok.lit` per character. -/
def lits (s : String) : List Tok := s.data.map Tok.lit

/-- Regex `OSH\s*Version\s*:?[\s\-]*([0-9.]+)` as a token list. -/
def pat1 : List Tok :=
  lits "OSH" ++ [.star .ws] ++ lits "Version" ++ [.star .ws, .opt ':', .star .wsdash, .grp]

/-- Regex `Version\s*:?[\s\-]*([0-9.]+).*OSH` as a token list. -/
def pat2 : List Tok :=
  lits "Version" ++ [.star .ws, .opt ':', .star .wsdash, .grp, .star .dot] ++ lits "OSH"

/-- Regex `Occupational\s+Safety\s+and\s+Health\s+Schedule.*Version\s*:?[\s\-]*([0-9.]+)`
as a token list. -/
def pat3 : List Tok :=
  lits "Occupational" ++ [.plus .ws] ++ lits "Safety" ++ [.plus .ws] ++ lits "and" ++
    [.plus .ws] ++ lits "Health" ++ [.plus .ws] ++ lits "Schedule" ++ [.star .dot] ++
    lits "Version" ++ [.star .ws, .opt ':', .star .wsdash, .grp]

/-- The ordered pattern list of `find_osh_version` (`patterns` in the source). -/
def oshPatterns : List (List Tok) := [pat1, pat2, pat3]

/-- The `for pattern in patterns` loop of `find_osh_version`: first pattern
with a successful `re.search` wins and its group 1 is returned. -/
def find_osh_aux : List (List Tok) → String → String
  | [], _ => "Not Found"
  | p :: ps, text =>
    match search p text.data with
    | some g => String.mk g
    | none => find_osh_aux ps text

/-- `find_osh_version(text)` from `src/app.py`. -/
def find_osh_version (text : String) : String :=
  find_osh_aux oshPatterns text

/-- Lower-case a character list (`str.lower()` restricted to ASCII case
folding, which covers every keyword and schedule label of the source). -/
def lower (s : List Char) : List Char := s.map Char.toLower

/-- Python's substring test `needle in hay` on strings. -/
def containsSub (needle : List Char) : List Char → Bool
  | [] => needle.isEmpty
  | c :: s => needle.isPrefixOf (c :: s) || containsSub needle s

/-- The HIGH-tier keyword list of `risk_keywords`. -/
def highKeywords : List String :=
  ["working at height", "confined spaces", "electrical", "fiber splicing",
   "explosive", "hot works"]

/-- The MEDIUM-tier keyword list of `risk_keywords`. -/
def mediumKeywords : List String :=
  ["maintenance", "installation", "driving", "repairs", "testing"]

/-- The LOW-tier keyword list of `risk_keywords`. -/
def lowKeywords : List String :=
  ["cleaning", "administration", "delivery", "inspection"]

/-- `risk_keywords` from `src/app.py`: a Python dict, iterated in insertion
order HIGH, MEDIUM, LOW. -/
def risk_keywords : List (String × List String) :=
  [("HIGH", highKeywords), ("MEDIUM", mediumKeywords), ("LOW", lowKeywords)]

/-- The inner `for kw in keywords` loop of `classify_risk`: does some keyword
of the list occur (lower-cased) in the lower-cased text? -/
def kwHit (kws : List String) (text : String) : Bool :=
  kws.any (fun kw => containsSub (lower kw.data) (lower text.data))

/-- The outer `for level, keywords in risk_keywords.items()` loop of
`classify_risk`: return the first level one of whose keywords occurs in the
text. -/
def classify_aux : List (String × List String) → String → String
  | [], _ => "Unknown"
  | (level, kws) :: rest, text =>
    if kwHit kws text then level else classify_aux rest text

/-- `classify_risk(text)` from `src/app.py`. -/
def classify_risk (text : String) : String :=
  classify_aux risk_keywords text

/-- `key_schedules` from `src/app.py`. -/
def key_schedules : List String :=
  ["PRICING", "SCOPE OF WORK", "SLA", "SAFETY OSH", "SUPPLIER CODE OF CONDUCT",
   "DOCUMENT VERSION OSH", "DOCUMENT VERSION CODE OF CONDUCT",
   "LIQUIDATED DAMAGES", "PAYMENT TERMS", "INCOTERMS"]

/-- The accumulation loop of `check_schedules`. -/
def check_aux : List String → String → List String
  | [], _ => []
  | sched :: rest, text =>
    if containsSub (lower sched.data) (lower text.data) then
      sched :: check_aux rest text
    else check_aux rest text

/-- `check_schedules(text)` from `src/app.py`. -/
def check_schedules (text : String) : List String :=
  check_aux key_schedules text

/-- An uploaded file: its name together with the page texts PyMuPDF would
extract from it and the paragraph texts python-docx would extract from it
(the external parsers are abstracted as these two fields). -/
structure UploadedFile where
  name : String
  pdfPages : List String
  docxParas : List String

/-- Python's case-sensitive `str.endswith`. -/
def endswith (s suffix : String) : Bool :=
  suffix.data.isSuffixOf s.data

/-- `extract_text(file)` from `src/app.py`: dispatch on the file-name
extension; join pages (PDF) or paragraphs (Word) with a newline; any other
name yields the empty string. -/
def extract_text (file : UploadedFile) : String :=
  if endswith file.name ".pdf" then String.intercalate "\n" file.pdfPages
  else if endswith file.name ".docx" then String.intercalate "\n" file.docxParas
  else ""

/-- The compliance expression of the per-contract loop:
`"✅ Compliant" if version == current_osh_version and version != "Not Found"
else "❌ Not Compliant"`. -/
def complianceLabel (version current_osh_version : String) : String :=
  if version = current_osh_version ∧ version ≠ "Not Found" then "✅ Compliant"
  else "❌ Not Compliant"

/-- One row of the results table (`result` dict of the source). -/
structure AnalysisResult where
  file : String
  version : String
  compliance : String
  risk : String
  schedules : List String
deriving DecidableEq

/-- The `for file in contract_files` loop: per file, extract the text, detect
the version, label compliance, classify risk and collect schedules; return
the results list together with the `compliant_contracts` and
`non_compliant_contracts` name lists, all in upload order. -/
def processFiles (current_osh_version : String) :
    List UploadedFile → List AnalysisResult × List String × List String
  | [] => ([], [], [])
  | file :: rest =>
    let contract_text := extract_text file
    let version := find_osh_version contract_text
    let compliance := complianceLabel version current_osh_version
    let risk := classify_risk contract_text
    let schedules := check_schedules contract_text
    let tail := processFiles current_osh_version rest
    (⟨file.name, version, compliance, risk, schedules⟩ :: tail.1,
     if compliance = "✅ Compliant" then file.name :: tail.2.1 else tail.2.1,
     if compliance = "✅ Compliant" then tail.2.2 else file.name :: tail.2.2)

/-- Double every quote character of a field body (CSV quote escaping). -/
def csvEscape : List Char → List Char
  | [] => []
  | c :: s => if c = '"' then '"' :: '"' :: csvEscape s else c :: csvEscape s

/-- Render one CSV field: the body, quote-escaped, wrapped in quotes. -/
def renderField (f : String) : List Char :=
  '"' :: (csvEscape f.data ++ ['"'])

/-- Render one CSV record: fields separated by commas, terminated by a
newline. -/
def renderRow : List String → List Char
  | [] => ['\n']
  | [f] => renderField f ++ ['\n']
  | f :: g :: t => renderField f ++ ',' :: renderRow (g :: t)

/-- Render a list of CSV records. -/
def renderRows : List (List String) → List Char
  | [] => []
  | r :: rs => renderRow r ++ renderRows rs

/-- The column headers of the results table (`results` dict keys, which
become the DataFrame columns). -/
def csvHeader : List String :=
  ["file", "version", "compliance", "risk", "schedules"]

/-- The tabular row of one analysis result; the schedules list becomes one
joined string field, as in the persisted row of the source. -/
def toRow (r : AnalysisResult) : List String :=
  [r.file, r.version, r.compliance, r.risk, String.intercalate ", " r.schedules]

/-- Modelled from the spec: `generate_csv` delegates serialization to
`pandas.DataFrame.to_csv(index=False)`, which is not part of this
repository; the spec describes the export as the result table written as
CSV.  Header record first, then one record per result row, fields quoted. -/
def generate_csv (results : List AnalysisResult) : List Char :=
  renderRow csvHeader ++ renderRows (results.map toRow)

/-- Read one quoted field body: `""` is an escaped quote, a single `"`
closes the field.  Returns the field body and the remaining input. -/
def readField : List Char → Option (List Char × List Char)
  | [] => none
  | c :: rest =>
    if c = '"' then
      match rest with
      | [] => some ([], [])
      | c2 :: rest2 =>
        if c2 = '"' then (readField rest2).map (fun p => ('"' :: p.1, p.2))
        else some ([], c2 :: rest2)
    else (readField rest).map (fun p => (c :: p.1, p.2))

/-- Read one CSV field: an opening quote followed by a field body. -/
def parseField : List Char → Option (List Char × List Char)
  | [] => none
  | c :: rest => if c = '"' then readField rest else none

/-- Read one CSV record of exactly `n` fields followed by a newline. -/
def parseRecord : Nat → List Char → Option (List (List Char) × List Char)
  | 0, s =>
    match s with
    | '\n' :: rest => some ([], rest)
    | _ => none
  | n + 1, s =>
    match parseField s with
    | none => none
    | some (f, rest) =>
      match n with
      | 0 =>
        match rest with
        | '\n' :: r => some ([f], r)
        | _ => none
      | m + 1 =>
        match rest with
        | ',' :: r =>
          match parseRecord (m + 1) r with
          | none => none
          | some (fs, r2) => some (f :: fs, r2)
        | _ => none

/-- Read records of `ncols` fields until the input is exhausted (`fuel`
bounds the number of records; each record consumes at least one character,
so the input length is always enough fuel). -/
def parseRows (ncols : Nat) : Nat → List Char → Option (List (List String))
  | _, [] => some []
  | 0, _ :: _ => none
  | fuel + 1, c :: s =>
    match parseRecord ncols (c :: s) with
    | none => none
    | some (fs, rest) =>
      match parseRows ncols fuel rest with
      | none => none
      | some rows => some (fs.map String.mk :: rows)

/-- Modelled from the spec: re-reading the exported CSV data (the spec's
round-trip property; the repository contains no reader).  Checks the header
record and returns the data rows. -/
def parseCSV (s : List Char) : Option (List (List String)) :=
  match parseRecord csvHeader.length s with
  | none => none
  | some (hdr, rest) =>
    if hdr.map String.mk = csvHeader then parseRows csvHeader.length rest.length rest
    else none

/-! ### Spec-side predicates and general lemmas -/

/-- Case-insensitive occurrence: the lower-cased needle is a contiguous
substring (infix) of the lower-cased haystack. -/
def OccursCI (needle hay : String) : Prop :=
  lower needle.data <:+: lower hay.data

instance (needle hay : String) : Decidable (OccursCI needle hay) :=
  List.decidableInfix _ _

/-- The executable substring test agrees with the infix relation. -/
theorem containsSub_iff (n : List Char) : ∀ h, containsSub n h = true ↔ n <:+: h := by
  intro h
  induction h with
  | nil => simp [containsSub, List.isEmpty_iff]
  | cons c t ih => simp [containsSub, List.infix_cons_iff, ih]

/-- `kwHit` agrees with existential case-insensitive occurrence. -/
theorem kwHit_iff (kws : List String) (text : String) :
    kwHit kws text = true ↔ ∃ kw ∈ kws, OccursCI kw text := by
  simp [kwHit, List.any_eq_true, containsSub_iff, OccursCI]

theorem containsSub_eq_decide (needle hay : String) :
    containsSub (lower needle.data) (lower hay.data) = decide (OccursCI needle hay) := by
  by_cases h : OccursCI needle hay
  · rw [decide_eq_true h]
    exact (containsSub_iff _ _).mpr h
  · rw [decide_eq_false h]
    by_contra hb
    exact h ((containsSub_iff _ _).mp (by revert hb; cases containsSub (lower needle.data) (lower hay.data) <;> simp))

/-- The schedule loop is a filter over the fixed list. -/
theorem check_aux_filter (text : String) :
    ∀ l : List String,
      check_aux l text = l.filter (fun sched => containsSub (lower sched.data) (lower text.data)) := by
  intro l
  induction l with
  | nil => rfl
  | cons s rest ih => simp [check_aux, List.filter_cons, ih]

/-! ### Claim theorems -/

/-- C1: a contract is labelled "✅ Compliant" iff the version detected in the
contract text equals the version detected in the reference OSH text and
neither of the two is the sentinel "Not Found"; otherwise it is labelled
"❌ Not Compliant". -/
theorem compliance_iff_versions_match (contract_text osh_text : String) :
    (complianceLabel (find_osh_version contract_text) (find_osh_version osh_text)
        = "✅ Compliant" ↔
      find_osh_version contract_text = find_osh_version osh_text ∧
        find_osh_version contract_text ≠ "Not Found" ∧
        find_osh_version osh_text ≠ "Not Found") ∧
    (complianceLabel (find_osh_version contract_text) (find_osh_version osh_text)
        = "❌ Not Compliant" ↔
      ¬(find_osh_version contract_text = find_osh_version osh_text ∧
          find_osh_version contract_text ≠ "Not Found" ∧
          find_osh_version osh_text ≠ "Not Found")) := by
  have key : (find_osh_version contract_text = find_osh_version osh_text ∧
        find_osh_version contract_text ≠ "Not Found") ↔
      (find_osh_version contract_text = find_osh_version osh_text ∧
        find_osh_version contract_text ≠ "Not Found" ∧
        find_osh_version osh_text ≠ "Not Found") := by
    constructor
    · rintro ⟨h1, h2⟩
      exact ⟨h1, h2, h1 ▸ h2⟩
    · rintro ⟨h1, h2, _⟩
      exact ⟨h1, h2⟩
  unfold complianceLabel
  by_cases h : find_osh_version contract_text = find_osh_version osh_text ∧
      find_osh_version contract_text ≠ "Not Found"
  · rw [if_pos h]
    constructor
    · simp only [true_iff]
      exact key.mp h
    · constructor
      · intro hbad
        exact absurd hbad (by decide)
      · intro hbad
        exact absurd (key.mp h) hbad
  · rw [if_neg h]
    constructor
    · constructor
      · intro hbad
        exact absurd hbad (by decide)
      · intro hgood
        exact absurd (key.mpr hgood) h
    · simp only [true_iff]
      exact fun hgood => h (key.mpr hgood)

/-- C10: every uploaded contract lands in exactly one of the two summary
lists, so the compliant count plus the non-compliant count equals the number
of uploaded contracts, which also equals the number of result rows. -/
theorem summary_counts_partition (current_osh_version : String)
    (files : List UploadedFile) :
    (processFiles current_osh_version files).2.1.length
        + (processFiles current_osh_version files).2.2.length = files.length ∧
    (processFiles current_osh_version files).1.length = files.length := by
  induction files with
  | nil => simp [processFiles]
  | cons f rest ih =>
    obtain ⟨ih1, ih2⟩ := ih
    by_cases h : complianceLabel (find_osh_version (extract_text f)) current_osh_version
        = "✅ Compliant"
    · refine ⟨?_, ?_⟩ <;> simp [processFiles, h] <;> omega
    · refine ⟨?_, ?_⟩ <;> simp [processFiles, h] <;> omega

/-- C3: `classify_risk` scans the tiers HIGH, MEDIUM, LOW in that priority
order and returns the first tier one of whose keyword phrases occurs
case-insensitively in the text, returning "Unknown" when no keyword of any
tier occurs; in particular a text containing "working at height" is HIGH, a
text containing "cleaning" and no higher-tier keyword is LOW, a text with no
keyword is "Unknown", and with keywords of several tiers present the
highest-priority tier wins. -/
theorem classify_risk_priority (text : String) :
    (classify_risk text = "HIGH" ↔ ∃ kw ∈ highKeywords, OccursCI kw text) ∧
    (classify_risk text = "MEDIUM" ↔
      ¬(∃ kw ∈ highKeywords, OccursCI kw text) ∧
        ∃ kw ∈ mediumKeywords, OccursCI kw text) ∧
    (classify_risk text = "LOW" ↔
      ¬(∃ kw ∈ highKeywords, OccursCI kw text) ∧
        ¬(∃ kw ∈ mediumKeywords, OccursCI kw text) ∧
        ∃ kw ∈ lowKeywords, OccursCI kw text) ∧
    (classify_risk text = "Unknown" ↔
      ¬(∃ kw ∈ highKeywords, OccursCI kw text) ∧
        ¬(∃ kw ∈ mediumKeywords, OccursCI kw text) ∧
        ¬(∃ kw ∈ lowKeywords, OccursCI kw text)) ∧
    classify_risk "Duties include working at height on the mast" = "HIGH" ∧
    classify_risk "Daily cleaning of the premises" = "LOW" ∧
    classify_risk "no keywords" = "Unknown" ∧
    classify_risk "cleaning and electrical maintenance" = "HIGH" := by
  have hunf : classify_risk text =
      if kwHit highKeywords text then "HIGH"
      else if kwHit mediumKeywords text then "MEDIUM"
      else if kwHit lowKeywords text then "LOW"
      else "Unknown" := by
    simp [classify_risk, risk_keywords, classify_aux]
  refine ⟨?_, ?_, ?_, ?_, by decide, by decide, by decide, by decide⟩ <;>
    rw [hunf] <;> simp only [← kwHit_iff] <;>
    cases hb1 : kwHit highKeywords text <;>
    cases hb2 : kwHit mediumKeywords text <;>
    cases hb3 : kwHit lowKeywords text <;>
    simp [hb1, hb2, hb3]

/-- C4: `check_schedules` returns exactly the sub-list of the fixed
schedule-label list whose labels occur case-insensitively in the text, in
the order of the fixed list; for the text "PRICING" the result is the
one-element list ["PRICING"]. -/
theorem check_schedules_present_subset (text : String) :
    check_schedules text
        = key_schedules.filter (fun sched => decide (OccursCI sched text)) ∧
    (∀ sched, sched ∈ check_schedules text ↔
      sched ∈ key_schedules ∧ OccursCI sched text) ∧
    check_schedules "PRICING" = ["PRICING"] := by
  have hfilter : check_schedules text
      = key_schedules.filter (fun sched => decide (OccursCI sched text)) := by
    rw [check_schedules, check_aux_filter]
    exact List.filter_congr (fun sched _ => containsSub_eq_decide sched text)
  refine ⟨hfilter, ?_, by decide⟩
  intro sched
  rw [hfilter]
  simp [List.mem_filter]

/-- C5: the three scan operations degrade to their sentinel on absence of a
match: `find_osh_version` returns "Not Found" when no version pattern
matches, `classify_risk` returns "Unknown" when no risk keyword occurs, and
`check_schedules` returns the empty list when no schedule label occurs. -/
theorem sentinel_on_no_match (text : String) :
    ((∀ p ∈ oshPatterns, search p text.data = none) →
      find_osh_version text = "Not Found") ∧
    ((∀ tier ∈ risk_keywords, ∀ kw ∈ tier.2, ¬OccursCI kw text) →
      classify_risk text = "Unknown") ∧
    ((∀ sched ∈ key_schedules, ¬OccursCI sched text) →
      check_schedules text = []) := by
  refine ⟨?_, ?_, ?_⟩
  · intro h
    have h1 := h pat1 (by simp [oshPatterns])
    have h2 := h pat2 (by simp [oshPatterns])
    have h3 := h pat3 (by simp [oshPatterns])
    simp [find_osh_version, find_osh_aux, oshPatterns, h1, h2, h3]
  · intro h
    have hbH : kwHit highKeywords text = false := by
      rw [← Bool.not_eq_true, kwHit_iff]
      rintro ⟨kw, hkw, hocc⟩
      exact h ("HIGH", highKeywords) (by simp [risk_keywords]) kw hkw hocc
    have hbM : kwHit mediumKeywords text = false := by
      rw [← Bool.not_eq_true, kwHit_iff]
      rintro ⟨kw, hkw, hocc⟩
      exact h ("MEDIUM", mediumKeywords) (by simp [risk_keywords]) kw hkw hocc
    have hbL : kwHit lowKeywords text = false := by
      rw [← Bool.not_eq_true, kwHit_iff]
      rintro ⟨kw, hkw, hocc⟩
      exact h ("LOW", lowKeywords) (by simp [risk_keywords]) kw hkw hocc
    simp [classify_risk, risk_keywords, classify_aux, hbH, hbM, hbL]
  · intro h
    rw [check_schedules, check_aux_filter]
    rw [List.filter_eq_nil_iff]
    intro sched hsched
    rw [containsSub_eq_decide]
    simpa using h sched hsched

/-- Witness for C5: on the text "hello world" no pattern, keyword or label
matches, and each scan returns its sentinel. -/
theorem sentinel_on_no_match_witness :
    find_osh_version "hello world" = "Not Found" ∧
    classify_risk "hello world" = "Unknown" ∧
    check_schedules "hello world" = [] :=
  ⟨(sentinel_on_no_match "hello world").1 (by decide),
   (sentinel_on_no_match "hello world").2.1 (by decide),
   (sentinel_on_no_match "hello world").2.2 (by decide)⟩

/-- A file name cannot end in both ".pdf" and ".docx". -/
theorem not_pdf_suffix_of_docx_suffix (name : String)
    (h : ".docx".data <:+ name.data) : ¬(".pdf".data <:+ name.data) := by
  intro hp
  have : ".pdf".data <:+ ".docx".data :=
    List.suffix_of_suffix_length_le hp h (by decide)
  revert this
  decide

/-- C6: `extract_text` returns the newline-joined pages for a name ending in
".pdf", the newline-joined paragraphs for a name ending in ".docx", and the
empty string when the name ends in neither. -/
theorem extract_text_by_extension (file : UploadedFile) :
    (endswith file.name ".pdf" = true →
      extract_text file = String.intercalate "\n" file.pdfPages) ∧
    (endswith file.name ".docx" = true →
      extract_text file = String.intercalate "\n" file.docxParas) ∧
    (endswith file.name ".pdf" = false → endswith file.name ".docx" = false →
      extract_text file = "") := by
  refine ⟨?_, ?_, ?_⟩
  · intro h
    simp [extract_text, h]
  · intro h
    have hpdf : endswith file.name ".pdf" = false := by
      rw [← Bool.not_eq_true]
      intro hp
      exact not_pdf_suffix_of_docx_suffix file.name
        (by simpa [endswith, List.isSuffixOf_iff_suffix] using h)
        (by simpa [endswith, List.isSuffixOf_iff_suffix] using hp)
    simp [extract_text, h, hpdf]
  · intro h1 h2
    simp [extract_text, h1, h2]

/-- Witness for C6: a ".pdf" name joins the pages, a ".docx" name joins the
paragraphs, and any other name yields the empty string. -/
theorem extract_text_by_extension_witness :
    extract_text ⟨"a.pdf", ["p1", "p2"], ["q"]⟩ = "p1\np2" ∧
    extract_text ⟨"b.docx", ["p"], ["d1", "d2"]⟩ = "d1\nd2" ∧
    extract_text ⟨"c.txt", ["p"], ["d"]⟩ = "" := by
  refine ⟨?_, ?_, ?_⟩
  · rw [(extract_text_by_extension ⟨"a.pdf", ["p1", "p2"], ["q"]⟩).1 (by decide)]
    rfl
  · rw [(extract_text_by_extension ⟨"b.docx", ["p"], ["d1", "d2"]⟩).2.1 (by decide)]
    rfl
  · exact (extract_text_by_extension ⟨"c.txt", ["p"], ["d"]⟩).2.2 (by decide) (by decide)

/-- C8: the extension check of `extract_text` is case-sensitive: a file whose
name ends in an upper- or mixed-case variant of ".pdf" or ".docx" (any
suffix that lower-cases to the extension without being exactly it) is
treated as unrecognized and yields the empty string. -/
theorem extract_text_extension_case_sensitive (file : UploadedFile) (e : String)
    (hsuf : e.data <:+ file.name.data)
    (hvar : lower e.data = ".pdf".data ∨ lower e.data = ".docx".data)
    (hne1 : e ≠ ".pdf") (hne2 : e ≠ ".docx") :
    extract_text file = "" := by
  have hlen : e.data.length = (lower e.data).length := by simp [lower]
  have hpdf : ¬(".pdf".data <:+ file.name.data) := by
    intro hp
    rcases hvar with hv | hv
    · have hl4 : e.data.length = 4 := by rw [hlen, hv]; rfl
      have hsub : ".pdf".data <:+ e.data :=
        List.suffix_of_suffix_length_le hp hsuf (by rw [hl4]; decide)
      have heq : ".pdf".data = e.data := hsub.eq_of_length (by rw [hl4]; rfl)
      exact hne1 (String.ext heq.symm)
    · have hl5 : e.data.length = 5 := by rw [hlen, hv]; rfl
      have hsub : ".pdf".data <:+ e.data :=
        List.suffix_of_suffix_length_le hp hsuf (by rw [hl5]; decide)
      have hmap : lower ".pdf".data <:+ lower e.data :=
        List.IsSuffix.map Char.toLower hsub
      rw [hv] at hmap
      revert hmap
      decide
  have hdocx : ¬(".docx".data <:+ file.name.data) := by
    intro hp
    rcases hvar with hv | hv
    · have hl4 : e.data.length = 4 := by rw [hlen, hv]; rfl
      have hsub : e.data <:+ ".docx".data :=
        List.suffix_of_suffix_length_le hsuf hp (by rw [hl4]; decide)
      have hmap : lower e.data <:+ lower ".docx".data :=
        List.IsSuffix.map Char.toLower hsub
      rw [hv] at hmap
      revert hmap
      decide
    · have hl5 : e.data.length = 5 := by rw [hlen, hv]; rfl
      have heq : e.data = ".docx".data := by
        have hsub : e.data <:+ ".docx".data :=
          List.suffix_of_suffix_length_le hsuf hp (by rw [hl5]; decide)
        exact hsub.eq_of_length (by rw [hl5]; rfl)
      exact hne2 (String.ext heq)
  simp [extract_text, endswith, List.isSuffixOf_iff_suffix, hpdf, hdocx]

/-- Witness for C8: "report.PDF" ends in the upper-case variant ".PDF", so
extraction yields the empty string. -/
theorem extract_text_extension_case_sensitive_witness :
    extract_text ⟨"report.PDF", ["page"], ["para"]⟩ = "" :=
  extract_text_extension_case_sensitive ⟨"report.PDF", ["page"], ["para"]⟩ ".PDF"
    (by decide) (Or.inl (by decide)) (by decide) (by decide)

/-- If the tokens match at the start of some suffix of `s`, then `search`
succeeds on `s` (it scans every start position). -/
theorem search_isSome_of_suffix (toks : List Tok) :
    ∀ (s t g : List Char), matchToks toks t = some g → t <:+ s →
      ∃ g', search toks s = some g' := by
  intro s
  induction s with
  | nil =>
    intro t g hm ht
    have ht' : t = [] := List.suffix_nil.mp ht
    subst ht'
    exact ⟨g, by simp [search, hm]⟩
  | cons c s ih =>
    intro t g hm ht
    rcases List.suffix_cons_iff.mp ht with h | h
    · subst h
      exact ⟨g, by simp [search, hm]⟩
    · rcases ih t g hm h with ⟨g', hg'⟩
      cases hcase : matchToks toks (c :: s) with
      | some g2 => exact ⟨g2, by simp [search, hcase]⟩
      | none => exact ⟨g', by simp [search, hcase, hg']⟩

/-- The pattern loop of `find_osh_version` returns the group of the first
pattern (in list order) whose `search` succeeds. -/
theorem find_osh_aux_eq_of_first (text : String) :
    ∀ (ps : List (List Tok)) (i : Nat) (hi : i < ps.length) (g : List Char),
      (∀ j (hj : j < ps.length), j < i → search (ps.get ⟨j, hj⟩) text.data = none) →
      search (ps.get ⟨i, hi⟩) text.data = some g →
      find_osh_aux ps text = String.mk g := by
  intro ps
  induction ps with
  | nil =>
    intro i hi
    exact absurd hi (by simp)
  | cons p ps ih =>
    intro i hi g hfirst hs
    cases i with
    | zero =>
      have hp : search p text.data = some g := hs
      simp [find_osh_aux, hp]
    | succ i' =>
      have h0 : search p text.data = none :=
        hfirst 0 (by simp) (Nat.succ_pos i')
      simp only [find_osh_aux, h0]
      exact ih i' (Nat.lt_of_succ_lt_succ hi) g
        (fun j hj hlt => hfirst (j + 1) (by simpa using hj) (Nat.succ_lt_succ hlt))
        hs

/-- C2: `find_osh_version` applies the fixed ordered pattern list
case-insensitively and returns the capturing group of the `re.search` of the
first pattern (in list priority order) that matches anywhere in the text: if
some suffix of the text starts with a match of pattern `i` and no
higher-priority pattern matches anywhere, the result is the group found by
searching pattern `i`. -/
theorem find_osh_version_first_pattern (text : String) (i : Nat)
    (hi : i < oshPatterns.length) (t g : List Char)
    (hsub : t <:+ text.data)
    (hmatch : matchToks (oshPatterns.get ⟨i, hi⟩) t = some g)
    (hprior : ∀ j (hj : j < oshPatterns.length), j < i →
      search (oshPatterns.get ⟨j, hj⟩) text.data = none) :
    ∃ g', search (oshPatterns.get ⟨i, hi⟩) text.data = some g' ∧
      find_osh_version text = String.mk g' := by
  rcases search_isSome_of_suffix (oshPatterns.get ⟨i, hi⟩) text.data t g hmatch hsub
    with ⟨g', hg'⟩
  exact ⟨g', hg', find_osh_aux_eq_of_first text oshPatterns i hi g' hprior hg'⟩

/-- Witness for C2: in "OSH Version: 1.2" the first pattern matches at the
start (a suffix of the text), no earlier pattern precedes it, and the
detected version is the captured group "1.2". -/
theorem find_osh_version_first_pattern_witness :
    find_osh_version "OSH Version: 1.2" = "1.2" := by
  rcases find_osh_version_first_pattern "OSH Version: 1.2" 0 (by decide)
      ("OSH Version: 1.2".data) ['1', '.', '2'] (List.suffix_refl _) (by decide)
      (fun j hj hlt => absurd hlt (Nat.not_lt_zero j)) with ⟨g', hs, hf⟩
  have hsearch : search (oshPatterns.get ⟨0, by decide⟩) "OSH Version: 1.2".data
      = some ['1', '.', '2'] := by decide
  have hg : g' = ['1', '.', '2'] := Option.some.inj (hs.symm.trans hsearch)
  rw [hf, hg]

/-- Inversion for the greedy star driver: a success comes from some
consumption length `j ≤ k`. -/
theorem tryGreedy_eq_some (f : Nat → Option (List Char)) :
    ∀ k g, tryGreedy f k = some g → ∃ j, j ≤ k ∧ f j = some g := by
  intro k
  induction k with
  | zero =>
    intro g h
    exact ⟨0, Nat.le_refl 0, h⟩
  | succ k ih =>
    intro g h
    rw [tryGreedy] at h
    cases hf : f (k + 1) with
    | some g2 =>
      rw [hf] at h
      simp only [] at h
      exact ⟨k + 1, Nat.le_refl _, hf.trans h⟩
    | none =>
      rw [hf] at h
      simp only [] at h
      rcases ih g h with ⟨j, hj, hfj⟩
      exact ⟨j, Nat.le_succ_of_le hj, hfj⟩

/-- Inversion for the greedy plus driver: a success comes from some
consumption length `1 ≤ j ≤ k`. -/
theorem tryGreedyPos_eq_some (f : Nat → Option (List Char)) :
    ∀ k g, tryGreedyPos f k = some g → ∃ j, 1 ≤ j ∧ j ≤ k ∧ f j = some g := by
  intro k
  induction k with
  | zero =>
    intro g h
    exact absurd h (by simp [tryGreedyPos])
  | succ k ih =>
    intro g h
    rw [tryGreedyPos] at h
    cases hf : f (k + 1) with
    | some g2 =>
      rw [hf] at h
      simp only [] at h
      exact ⟨k + 1, Nat.succ_le_succ (Nat.zero_le k), Nat.le_refl _, hf.trans h⟩
    | none =>
      rw [hf] at h
      simp only [] at h
      rcases ih g h with ⟨j, hj1, hjk, hfj⟩
      exact ⟨j, hj1, Nat.le_succ_of_le hjk, hfj⟩

/-- Characters within the maximal class run all pass the class test. -/
theorem mem_take_of_le_runLen (cc : CClass) :
    ∀ (s : List Char) (j : Nat), j ≤ runLen cc s →
      ∀ c ∈ s.take j, cc.test c = true := by
  intro s
  induction s with
  | nil =>
    intro j hj c hc
    simp at hc
  | cons a s ih =>
    intro j hj c hc
    cases j with
    | zero => simp at hc
    | succ j' =>
      by_cases ha : cc.test a = true
      · rw [runLen, if_pos ha] at hj
        rw [List.take_succ_cons] at hc
        rcases List.mem_cons.mp hc with rfl | hc'
        · exact ha
        · exact ih j' (Nat.le_of_succ_le_succ hj) c hc'
      · rw [runLen, if_neg ha] at hj
        exact absurd hj (by omega)

/-- Shape of a successful match: every character of the returned capture
belongs to `[0-9.]`, and when the token list contains the capturing group
the capture is non-empty. -/
theorem matchToks_shape :
    ∀ (toks : List Tok) (s g : List Char), matchToks toks s = some g →
      (∀ c ∈ g, CClass.test CClass.digitdot c = true) ∧
        (Tok.grp ∈ toks → g ≠ []) := by
  intro toks
  induction toks with
  | nil =>
    intro s g h
    have hg : g = [] :=
      (Option.some.inj (show (some [] : Option (List Char)) = some g from h)).symm
    subst hg
    exact ⟨by simp, fun hm => absurd hm (by simp)⟩
  | cons tok ts ih =>
    intro s g h
    have hmem : Tok.grp ∈ tok :: ts → Tok.grp = tok ∨ Tok.grp ∈ ts := by
      intro hm
      exact List.mem_cons.mp hm
    cases tok with
    | lit c =>
      cases s with
      | nil => exact absurd h (by simp [matchToks])
      | cons d s' =>
        rw [matchToks] at h
        by_cases hd : d.toLower = c.toLower
        · rw [if_pos hd] at h
          rcases ih s' g h with ⟨h1, h2⟩
          refine ⟨h1, fun hm => h2 ?_⟩
          rcases hmem hm with heq | hmem'
          · exact absurd heq (by simp)
          · exact hmem'
        · rw [if_neg hd] at h
          exact absurd h (by simp)
    | opt c =>
      cases s with
      | nil =>
        rw [matchToks] at h
        rcases ih [] g h with ⟨h1, h2⟩
        refine ⟨h1, fun hm => h2 ?_⟩
        rcases hmem hm with heq | hmem'
        · exact absurd heq (by simp)
        · exact hmem'
      | cons d s' =>
        rw [matchToks] at h
        have hgoal : matchToks ts s' = some g ∨ matchToks ts (d :: s') = some g := by
          by_cases hd : d = c
          · rw [if_pos hd] at h
            cases hm : matchToks ts s' with
            | some g2 =>
              rw [hm] at h
              exact Or.inl h
            | none =>
              rw [hm] at h
              exact Or.inr h
          · rw [if_neg hd] at h
            exact Or.inr h
        have step : ∀ u, matchToks ts u = some g →
            (∀ c ∈ g, CClass.test CClass.digitdot c = true) ∧
              (Tok.grp ∈ Tok.opt c :: ts → g ≠ []) := by
          intro u hu
          rcases ih u g hu with ⟨h1, h2⟩
          refine ⟨h1, fun hm => h2 ?_⟩
          rcases hmem hm with heq | hmem'
          · exact absurd heq (by simp)
          · exact hmem'
        rcases hgoal with hu | hu
        · exact step s' hu
        · exact step (d :: s') hu
    | star cc =>
      rw [matchToks] at h
      rcases tryGreedy_eq_some _ _ g h with ⟨j, _, hfj⟩
      rcases ih (s.drop j) g hfj with ⟨h1, h2⟩
      refine ⟨h1, fun hm => h2 ?_⟩
      rcases hmem hm with heq | hmem'
      · exact absurd heq (by simp)
      · exact hmem'
    | plus cc =>
      rw [matchToks] at h
      rcases tryGreedyPos_eq_some _ _ g h with ⟨j, _, _, hfj⟩
      rcases ih (s.drop j) g hfj with ⟨h1, h2⟩
      refine ⟨h1, fun hm => h2 ?_⟩
      rcases hmem hm with heq | hmem'
      · exact absurd heq (by simp)
      · exact hmem'
    | grp =>
      rw [matchToks] at h
      rcases tryGreedyPos_eq_some _ _ g h with ⟨j, hj1, hjk, hfj⟩
      cases hm : matchToks ts (s.drop j) with
      | none =>
        rw [hm] at hfj
        exact absurd hfj (by simp)
      | some g2 =>
        rw [hm] at hfj
        have hg : g = s.take j := (Option.some.inj (by simpa using hfj)).symm
        subst hg
        constructor
        · exact mem_take_of_le_runLen CClass.digitdot s j hjk
        · intro _
          cases s with
          | nil =>
            rw [runLen] at hjk
            omega
          | cons a s' =>
            cases j with
            | zero => omega
            | succ j' => simp

/-- Shape of a successful search: same as `matchToks_shape`, at whichever
position the match was found. -/
theorem search_shape (toks : List Tok) :
    ∀ (s g : List Char), search toks s = some g →
      (∀ c ∈ g, CClass.test CClass.digitdot c = true) ∧
        (Tok.grp ∈ toks → g ≠ []) := by
  intro s
  induction s with
  | nil =>
    intro g h
    exact matchToks_shape toks [] g (by simpa [search] using h)
  | cons c s ih =>
    intro g h
    rw [search] at h
    cases hm : matchToks toks (c :: s) with
    | some g2 =>
      rw [hm] at h
      simp only [] at h
      exact matchToks_shape toks (c :: s) g (hm.trans h)
    | none =>
      rw [hm] at h
      simp only [] at h
      exact ih g h

/-- The pattern loop returns "Not Found" or a non-empty all-`[0-9.]` string
whenever every pattern of the list contains the capturing group. -/
theorem find_osh_aux_shape :
    ∀ (ps : List (List Tok)) (text : String), (∀ p ∈ ps, Tok.grp ∈ p) →
      find_osh_aux ps text = "Not Found" ∨
        (find_osh_aux ps text ≠ "" ∧
          ∀ c ∈ (find_osh_aux ps text).data, CClass.test CClass.digitdot c = true) := by
  intro ps
  induction ps with
  | nil =>
    intro text _
    exact Or.inl rfl
  | cons p ps ih =>
    intro text hall
    cases hs : search p text.data with
    | none =>
      simp only [find_osh_aux, hs]
      exact ih text (fun q hq => hall q (List.mem_cons_of_mem p hq))
    | some g =>
      rcases search_shape p text.data g hs with ⟨h1, h2⟩
      have hg : g ≠ [] := h2 (hall p (List.mem_cons_self p ps))
      refine Or.inr ?_
      simp only [find_osh_aux, hs]
      constructor
      · intro hcontra
        exact hg (congrArg String.data hcontra)
      · intro c hc
        exact h1 c hc

/-- C9: `find_osh_version` returns either the sentinel "Not Found" or a
non-empty string consisting only of decimal digits and dots (the shape of
the capturing group `([0-9.]+)`). -/
theorem find_osh_version_shape (text : String) :
    find_osh_version text = "Not Found" ∨
      (find_osh_version text ≠ "" ∧
        ∀ c ∈ (find_osh_version text).data, c.isDigit = true ∨ c = '.') := by
  have hall : ∀ p ∈ oshPatterns, Tok.grp ∈ p := by decide
  rcases find_osh_aux_shape oshPatterns text hall with h | ⟨h1, h2⟩
  · exact Or.inl h
  · refine Or.inr ⟨h1, fun c hc => ?_⟩
    have := h2 c hc
    simpa [CClass.test] using this

/-- Reading a quote-escaped field body terminated by a closing quote yields
the original body, provided the input continues with a non-quote (or ends). -/
theorem readField_escape :
    ∀ (f tail : List Char), (∀ d t, tail = d :: t → d ≠ '"') →
      readField (csvEscape f ++ '"' :: tail) = some (f, tail) := by
  intro f
  induction f with
  | nil =>
    intro tail htail
    cases tail with
    | nil => rfl
    | cons d t =>
      have hd : d ≠ '"' := htail d t rfl
      simp [csvEscape, readField, hd]
  | cons a f' ih =>
    intro tail htail
    by_cases ha : a = '"'
    · subst ha
      simp only [csvEscape, if_pos rfl, List.cons_append]
      simp [readField, ih tail htail]
    · simp only [csvEscape, if_neg ha, List.cons_append]
      rw [readField.eq_def]
      simp [ha, ih tail htail]

/-- Parsing a rendered field yields the field's characters. -/
theorem parseField_render (f : String) (tail : List Char)
    (htail : ∀ d t, tail = d :: t → d ≠ '"') :
    parseField (renderField f ++ tail) = some (f.data, tail) := by
  have hsplit : renderField f ++ tail = '"' :: (csvEscape f.data ++ '"' :: tail) := by
    simp [renderField]
  rw [hsplit, parseField]
  simp [readField_escape f.data tail htail]

/-- Parsing a rendered record of `row.length` fields yields the row's
fields and the rest of the input. -/
theorem parseRecord_render :
    ∀ (row : List String) (rest : List Char),
      parseRecord row.length (renderRow row ++ rest) = some (row.map String.data, rest) := by
  intro row
  induction row with
  | nil =>
    intro rest
    simp [renderRow, parseRecord]
  | cons f row' ih =>
    intro rest
    cases row' with
    | nil =>
      have hassoc : renderRow [f] ++ rest = renderField f ++ ('\n' :: rest) := by
        simp [renderRow]
      rw [hassoc]
      rw [show ([f] : List String).length = 1 from rfl, parseRecord]
      rw [parseField_render f ('\n' :: rest) (by intro d t hdt; cases hdt; decide)]
      rfl
    | cons g t =>
      have hassoc : renderRow (f :: g :: t) ++ rest
          = renderField f ++ (',' :: (renderRow (g :: t) ++ rest)) := by
        simp [renderRow]
      rw [show (f :: g :: t : List String).length = (t.length + 1) + 1 by simp, parseRecord]
      rw [hassoc]
      rw [parseField_render f (',' :: (renderRow (g :: t) ++ rest))
        (by intro d u hdu; cases hdu; decide)]
      have ih' : parseRecord (t.length + 1) (renderRow (g :: t) ++ rest)
          = some ((g :: t).map String.data, rest) := by
        rw [show t.length + 1 = (g :: t : List String).length by simp]
        exact ih rest
      simp [ih']

/-- A rendered record is never empty (it always ends with the newline). -/
theorem renderRow_ne_nil (r : List String) : renderRow r ≠ [] := by
  cases r with
  | nil => simp [renderRow]
  | cons f t =>
    cases t with
    | nil => simp [renderRow, renderField]
    | cons g t' => simp [renderRow, renderField]

/-- There are at least as many characters in the rendered records as there
are records. -/
theorem length_le_renderRows :
    ∀ rows : List (List String), rows.length ≤ (renderRows rows).length := by
  intro rows
  induction rows with
  | nil => simp [renderRows]
  | cons r rs ih =>
    have h1 : 0 < (renderRow r).length :=
      List.length_pos.mpr (renderRow_ne_nil r)
    simp only [renderRows, List.length_cons, List.length_append]
    omega

/-- Parsing rendered records with sufficient fuel yields the records. -/
theorem parseRows_render :
    ∀ (rows : List (List String)), (∀ r ∈ rows, r.length = csvHeader.length) →
      ∀ fuel, rows.length ≤ fuel →
        parseRows csvHeader.length fuel (renderRows rows) = some rows := by
  intro rows
  induction rows with
  | nil =>
    intro _ fuel _
    simp [renderRows, parseRows]
  | cons r rows' ih =>
    intro hlen fuel hfuel
    cases fuel with
    | zero => simp at hfuel
    | succ fuel' =>
      obtain ⟨c, t, hct⟩ := List.exists_cons_of_ne_nil (renderRow_ne_nil r)
      have hsplit : renderRows (r :: rows') = c :: (t ++ renderRows rows') := by
        rw [renderRows, hct]
        rfl
      have hrec : parseRecord csvHeader.length (c :: (t ++ renderRows rows'))
          = some (r.map String.data, renderRows rows') := by
        rw [show c :: (t ++ renderRows rows') = renderRow r ++ renderRows rows' by
          rw [hct]; rfl]
        rw [← hlen r (List.mem_cons_self r rows')]
        exact parseRecord_render r (renderRows rows')
      have hih : parseRows csvHeader.length fuel' (renderRows rows') = some rows' :=
        ih (fun x hx => hlen x (List.mem_cons_of_mem r hx)) fuel'
          (Nat.le_of_succ_le_succ hfuel)
      have hmk : (r.map String.data).map String.mk = r := by
        rw [List.map_map]
        have hid : (String.mk ∘ String.data) = id := funext fun s => rfl
        rw [hid, List.map_id]
      rw [hsplit, parseRows, hrec]
      simp [hih, hmk]

/-- C7: exporting a result list to CSV and re-reading the exported data
yields exactly the table rows of the original result list, in order. -/
theorem generate_csv_roundtrip (results : List AnalysisResult) :
    parseCSV (generate_csv results) = some (results.map toRow) := by
  unfold generate_csv parseCSV
  have hhdr : parseRecord csvHeader.length
      (renderRow csvHeader ++ renderRows (results.map toRow))
      = some (csvHeader.map String.data, renderRows (results.map toRow)) :=
    parseRecord_render csvHeader _
  rw [hhdr]
  have hmk : (csvHeader.map String.data).map String.mk = csvHeader := rfl
  have h5 : ∀ r ∈ results.map toRow, r.length = csvHeader.length := by
    intro r hr
    rcases List.mem_map.mp hr with ⟨x, _, rfl⟩
    rfl
  have hrows := parseRows_render (results.map toRow) h5
    (renderRows (results.map toRow)).length
    (length_le_renderRows (results.map toRow))
  simp [hmk, hrows]

end CompliScan
